import Mathlib

/-!
Verification of the spacebio retrieval pipeline (backend/rag_core.py,
backend/app.py, backend/ingest.py) against its natural-language
specification.  Python strings are modelled as Lean `String`s (lists of
characters), CPython `dict`s as records or association lists, floats as
rationals, and the external FAISS/OpenAI collaborators as oracle functions
passed in explicitly.  Fallible or possibly diverging code paths return
`Option`.
-/

/-- Python `str.isspace` characters relevant to `str.strip`/`str.split`
(`\x0b` is `\v`, `\x0c` is `\f`). -/
def isPySpace (c : Char) : Bool :=
  c == ' ' || c == '\t' || c == '\n' || c == '\r' || c == '\x0b' || c == '\x0c'

/-- Python `str.strip()` on a character list: drop leading and trailing
whitespace. -/
def pyStripL (l : List Char) : List Char :=
  ((l.dropWhile isPySpace).reverse.dropWhile isPySpace).reverse

/-- Python `s.strip()`. -/
def pyStrip (s : String) : String := (pyStripL s.toList).asString

/-- Worker for Python `str.split()` (split on whitespace runs, dropping
empty pieces); `cur` is the current word accumulated in reverse. -/
def wordsAux : List Char → List Char → List String
  | cur, [] => if cur.isEmpty then [] else [cur.reverse.asString]
  | cur, c :: rest =>
    if isPySpace c then
      if cur.isEmpty then wordsAux [] rest
      else cur.reverse.asString :: wordsAux [] rest
    else wordsAux (c :: cur) rest

/-- Python `s.split()` with no argument: words separated by whitespace runs. -/
def pySplit (s : String) : List String := wordsAux [] s.toList

/-- Python `" ".join(words)`. -/
def joinWords : List String → String
  | [] => ""
  | [w] => w
  | w :: x :: rest => w ++ " " ++ joinWords (x :: rest)

/-- Python `sep.join(pieces)`. -/
def joinSep (sep : String) : List String → String
  | [] => ""
  | [w] => w
  | w :: x :: rest => w ++ sep ++ joinSep sep (x :: rest)

/-- Python `needle in hay` substring test, on character lists. -/
def substrB (needle : List Char) : List Char → Bool
  | [] => needle.isEmpty
  | c :: rest => needle.isPrefixOf (c :: rest) || substrB needle rest

/-- Python `needle in hay` on strings. -/
def isSubstr (needle hay : String) : Bool := substrB needle.toList hay.toList

/-- Python `s.lower()` (ASCII case folding suffices for the inputs used here). -/
def pyLower (s : String) : String := (s.toList.map Char.toLower).asString

/-- Python `s[:n]` — the first `n` characters of `s`. -/
def pyTake (s : String) (n : Nat) : String := (s.toList.take n).asString

/-- Modelled from the spec: `rag_core.tokenize_len` computes
`len(_enc.encode(text))` with the external `tiktoken` `cl100k_base`
byte-pair encoder, a third-party collaborator that is not part of this
repository.  Following the spec ("Tokenization uses a byte-pair encoding
consistent with the embedding/generation models in use"), the token count
is modelled as the whitespace-word count; on every concrete input used in
the theorems below each word is a single byte-pair token, so the model
agrees with the real encoder on those inputs. -/
def tokenize_len (s : String) : Nat := (pySplit s).length

/-! ## The candidate splitter of `rag_core.chunk_text`

`re.split(r"\n\s*(?=[A-Z][A-Za-z0-9 ()\-]{2,50}\n)|\n{2,}", text)`:
split either at a newline (plus following whitespace) that is immediately
followed by a heading-looking line, or at a run of two or more newlines. -/

/-- Character class `[A-Z]`. -/
def isUpperAZ (c : Char) : Bool := 'A' ≤ c && c ≤ 'Z'

/-- Character class `[A-Za-z0-9 ()\-]` of the heading lookahead. -/
def isHeadBody (c : Char) : Bool :=
  ('A' ≤ c && c ≤ 'Z') || ('a' ≤ c && c ≤ 'z') || ('0' ≤ c && c ≤ '9') ||
  c == ' ' || c == '(' || c == ')' || c == '-'

/-- Scan of `[A-Za-z0-9 ()\-]{2,50}\n` after the initial capital: succeed when
the first newline comes after between 2 and 50 body characters. -/
def headBodyScan : List Char → Nat → Bool
  | [], _ => false
  | c :: rest, n =>
    if c == '\n' then decide (2 ≤ n)
    else if isHeadBody c && decide (n < 50) then headBodyScan rest (n + 1)
    else false

/-- The regex lookahead `(?=[A-Z][A-Za-z0-9 ()\-]{2,50}\n)` tested at a
position. -/
def headingLookahead : List Char → Bool
  | [] => false
  | c :: rest => isUpperAZ c && headBodyScan rest 0

/-- Greedy backtracking of `\s*` before the lookahead: try consuming `j`
whitespace characters, longest first. -/
def findJ (after : List Char) : Nat → Option Nat
  | 0 => if headingLookahead after then some 0 else none
  | j + 1 =>
    if headingLookahead (after.drop (j + 1)) then some (j + 1) else findJ after j

/-- Regex match attempt at a position whose first character is `c` and
remaining characters are `after`; `some k` means the match consumed `c` and
`k` further characters of `after`.  Alternative `\n\s*(?=heading)` is tried
first, then `\n{2,}` (both greedy), as in the source pattern. -/
def matchTail (c : Char) (after : List Char) : Option Nat :=
  if c == '\n' then
    match findJ after (after.takeWhile isPySpace).length with
    | some j => some j
    | none =>
      let r := (after.takeWhile (fun d => d == '\n')).length
      if 1 ≤ r then some r else none
  else none

/-- `re.split` driver: scan left to right, cutting at each leftmost match.
`fuel` bounds the recursion (each step consumes at least one character, so
`fuel = length` always suffices); `acc` is the current piece in reverse. -/
def splitGo : Nat → List Char → List Char → List String
  | _, acc, [] => [acc.reverse.asString]
  | 0, acc, rest => [(acc.reverse ++ rest).asString]
  | fuel + 1, acc, c :: rest =>
    match matchTail c rest with
    | some k => acc.reverse.asString :: splitGo fuel [] (rest.drop k)
    | none => splitGo fuel (c :: acc) rest

/-- The candidate list of `chunk_text`:
`re.split(r"\n\s*(?=[A-Z][A-Za-z0-9 ()\-]{2,50}\n)|\n{2,}", text)`. -/
def splitCandidates (s : String) : List String :=
  splitGo s.toList.length [] s.toList

/-! ## `rag_core.chunk_text` -/

/-- The hard-split loop for an oversized candidate:
`while start < len(words): chunks.append(" ".join(words[start:start+300]));
start += (300 - max(0, overlap // 3))`.  `inc1 + 1` is the start increment
(the caller guarantees it is positive); `fuel` bounds the recursion and
`fuel = words.length` always suffices. -/
def hardSplitGo (inc1 : Nat) : Nat → List String → List String
  | _, [] => []
  | 0, _ :: _ => []
  | fuel + 1, w :: rest =>
    joinWords ((w :: rest).take 300) ::
      hardSplitGo inc1 fuel ((w :: rest).drop (inc1 + 1))

/-- Hard split of an oversized candidate's words into 300-word windows
advancing by `inc1 + 1` words. -/
def hardSplit (ws : List String) (inc1 : Nat) : List String :=
  hardSplitGo inc1 ws.length ws

/-- The greedy accumulation loop of `chunk_text` (source lines 59-81):
`buff` is the running buffer, `acc` the chunks so far in reverse.  Returns
`none` exactly when the Python loop would diverge: a candidate alone
exceeds the budget while `300 - overlap // 3 ≤ 0`, so that `start` never
advances. -/
def greedy (tl : String → Nat) (maxT overlap : Nat) :
    List String → String → List String → Option (List String)
  | [], buff, acc =>
    some ((if buff = "" then acc else buff :: acc).reverse)
  | piece :: rest, buff, acc =>
    let p := pyStrip piece
    if p = "" then greedy tl maxT overlap rest buff acc
    else
      let cat := buff ++ (if buff = "" then "" else "\n") ++ p
      if tl cat ≤ maxT then greedy tl maxT overlap rest (pyStrip cat) acc
      else
        let acc1 := if buff = "" then acc else buff :: acc
        if tl p ≤ maxT then greedy tl maxT overlap rest p acc1
        else
          let inc := 300 - overlap / 3
          if inc = 0 then none
          else greedy tl maxT overlap rest ""
            ((hardSplit (pySplit p) (inc - 1)).reverse ++ acc1)

/-- The tail-context window of the post-processing pass:
`" ".join(prev.split()[-120:])`. -/
def tailContext (prev : String) : String :=
  joinWords ((pySplit prev).drop ((pySplit prev).length - 120))

/-- The merged form of the post-processing pass:
`(tail + "\n" + c).strip()`. -/
def mergeTail (prev c : String) : String :=
  pyStrip (tailContext prev ++ "\n" ++ c)

/-- The post-processing loop of `chunk_text` (source lines 83-94); `acc` is
`final` in reverse.  When the tail-prefixed merge fits the budget the code
executes `final[-1] = merged`, replacing the previous chunk. -/
def ppGo (tl : String → Nat) (maxT : Nat) : List String → List String → List String
  | acc, [] => acc.reverse
  | [], c :: rest => ppGo tl maxT [c] rest
  | prev :: accT, c :: rest =>
    let merged := mergeTail prev c
    if tl merged ≤ maxT then ppGo tl maxT (merged :: accT) rest
    else ppGo tl maxT (c :: prev :: accT) rest

/-- The post-processing pass of `chunk_text`: the first chunk is kept, every
later chunk is either merged into (replacing) its predecessor or appended. -/
def postProcess (tl : String → Nat) (maxT : Nat) : List String → List String
  | [] => []
  | c :: rest => ppGo tl maxT [c] rest

/-- The chunk list of `chunk_text` after the greedy loop, before
post-processing. -/
def chunk_rawChunks (tl : String → Nat) (text : String) (maxT overlap : Nat) :
    Option (List String) :=
  greedy tl maxT overlap (splitCandidates text) "" []

/-- The chunk list of `chunk_text` after post-processing, before the
empty-result fallback. -/
def chunk_core (tl : String → Nat) (text : String) (maxT overlap : Nat) :
    Option (List String) :=
  (chunk_rawChunks tl text maxT overlap).map (postProcess tl maxT)

/-- `rag_core.chunk_text(text, max_tokens, overlap)`: the tokenizer is passed
explicitly (the source closes over the module-level encoder).  The final
`return final or [text[:2000]]` falls back to a single bounded prefix chunk
when no chunks were produced. -/
def chunk_text (tl : String → Nat) (text : String) (maxT overlap : Nat) :
    Option (List String) :=
  (chunk_core tl text maxT overlap).map
    (fun final => if final = [] then [pyTake text 2000] else final)

/-! ## Facet vocabularies and `rag_core.tag_text` (dicts modelled as
association lists in insertion order) -/

def ORGANISMS : List (String × List String) :=
  [("rodent", ["mouse", "mice", "rat", "rats", "murine", "rodent"]),
   ("drosophila", ["drosophila", "fruit fly", "fruit flies"]),
   ("arabidopsis", ["arabidopsis", "a. thaliana", "thaliana"]),
   ("human", ["human", "astronaut", "crew member", "crew"]),
   ("yeast", ["yeast", "s. cerevisiae", "cerevisiae"]),
   ("zebrafish", ["zebrafish", "danio rerio"])]

def STRESSORS : List (String × List String) :=
  [("microgravity",
    ["microgravity", "spaceflight", "space flight", "0 g", "μg", "weightlessness"]),
   ("radiation", ["radiation", "cosmic ray", "galactic cosmic", "GCR", "ionizing"]),
   ("launch/landing",
    ["launch", "landing", "re-entry", "reentry", "ascent", "descent"]),
   ("isolation", ["isolation", "confinement"]),
   ("partial-g",
    ["lunar gravity", "martian gravity", "1/6 g", "3/8 g", "partial gravity"])]

def PLATFORMS : List (String × List String) :=
  [("ISS", ["iss", "international space station"]),
   ("Shuttle", ["space shuttle", "sts-"]),
   ("Ground Analog",
    ["hindlimb unloading", "bed rest", "clinostat", "random positioning machine",
     "rpm"])]

/-- `sum(1 for w in terms if w in low)`: how many of a label's surface terms
occur as substrings of the (already lowercased) text.  The terms themselves
are not lowercased, exactly as in the source. -/
def labelScore (low : String) (terms : List String) : Nat :=
  (terms.filter (fun w => isSubstr w low)).length

/-- The scanning loop of `tag_text`: update `(best, score)` only on a
strictly larger score. -/
def tagGo (low : String) :
    List (String × List String) → Option String → Nat → Option String
  | [], best, _ => best
  | (k, terms) :: rest, best, score =>
    let s := labelScore low terms
    if score < s then tagGo low rest (some k) s else tagGo low rest best score

/-- `rag_core.tag_text(t, vocab)`. -/
def tag_text (t : String) (vocab : List (String × List String)) : Option String :=
  tagGo (pyLower t) vocab none 0

/-- The scanning loop of `app._guess_from_text` (textually duplicated from
`tag_text` in the source). -/
def guessGo (low : String) :
    List (String × List String) → Option String → Nat → Option String
  | [], best, _ => best
  | (k, terms) :: rest, best, score =>
    let s := labelScore low terms
    if score < s then guessGo low rest (some k) s else guessGo low rest best score

/-- `app._guess_from_text(txt, vocab)`; `(txt or "")` sends `None` to `""`. -/
def guess_from_text (txt : Option String)
    (vocab : List (String × List String)) : Option String :=
  guessGo (pyLower (txt.getD "")) vocab none 0

/-- The maximum label score over a vocabulary. -/
def maxScoreV (low : String) : List (String × List String) → Nat
  | [] => 0
  | (_, terms) :: rest => max (labelScore low terms) (maxScoreV low rest)

/-- Reference form of the tagger's contract: the first-scanned label whose
(case-sensitive term against lowercased text) score attains the maximum,
provided that maximum is positive. -/
def firstStrictMaxLabel (t : String)
    (vocab : List (String × List String)) : Option String :=
  let low := pyLower t
  let m := maxScoreV low vocab
  if m = 0 then none
  else (vocab.find? (fun p => labelScore low p.2 = m)).map Prod.fst

/-- The claim's reading of a label score: case-insensitive matching for
every vocabulary term, i.e. the terms are lowercased as well as the text. -/
def labelScoreCI (low : String) (terms : List String) : Nat :=
  (terms.filter (fun w => isSubstr (pyLower w) low)).length

/-- The maximum case-insensitive label score over a vocabulary. -/
def maxScoreCIV (low : String) : List (String × List String) → Nat
  | [] => 0
  | (_, terms) :: rest => max (labelScoreCI low terms) (maxScoreCIV low rest)

/-- The tagger as the claim describes it: the label whose surface terms
achieve the strictly highest count of case-insensitive substring
occurrences, ties to the first-scanned label, none when all scores are
zero. -/
def tag_text_ci (t : String) (vocab : List (String × List String)) :
    Option String :=
  let low := pyLower t
  let m := maxScoreCIV low vocab
  if m = 0 then none
  else (vocab.find? (fun p => labelScoreCI low p.2 = m)).map Prod.fst

/-! ## Serving state and retrieval (`app.py`)

A metadata row (one line of `meta.jsonl`, as written by `ingest.py`). -/

structure Row where
  id : Nat
  doc_path : String
  doc_title : String
  year : Option String
  page_start : Nat
  page_end : Nat
  organism : Option String
  stressor : Option String
  platform : Option String
  text : String
deriving DecidableEq, Inhabited, Repr

/-- Python truthiness of an optional string (`None` and `""` are falsy). -/
def optTruthy : Option String → Bool
  | none => false
  | some s => s ≠ ""

/-- Python truthiness of an optional list (`None` and `[]` are falsy). -/
def listTruthy : Option (List String) → Bool
  | none => false
  | some l => !l.isEmpty

/-- The predicate of `app._apply_filters`: a facet filter applies only when
truthy, and then the row's facet must equal it. -/
def rowOk (organism stressor platform : Option String) (r : Row) : Bool :=
  (!(optTruthy organism) || r.organism == organism) &&
  (!(optTruthy stressor) || r.stressor == stressor) &&
  (!(optTruthy platform) || r.platform == platform)

/-- `app._apply_filters` on plain metadata rows. -/
def applyFiltersRow (organism stressor platform : Option String)
    (rows : List Row) : List Row :=
  rows.filter (rowOk organism stressor platform)

/-- `app._apply_filters` on score-annotated rows. -/
def applyFiltersScored (organism stressor platform : Option String)
    (rows : List (Row × Rat)) : List (Row × Rat) :=
  rows.filter (fun p => rowOk organism stressor platform p.1)

/-- The dedup loop shared by `/search` (no result cap inside the loop):
keep an element only if its key has not been seen yet. -/
def firstOccBy {α κ : Type} [DecidableEq κ] (key : α → κ) :
    List α → List κ → List α
  | [], _ => []
  | x :: rest, seen =>
    if key x ∈ seen then firstOccBy key rest seen
    else x :: firstOccBy key rest (key x :: seen)

/-- The dedup loop of `/ask`, `/ask-simple` and the semantic branch of
`_pick_context`: keep unseen keys and break once `k` results were appended
(the break fires after appending, so `k = 0` still yields one element). -/
def dedupTakeBy {α κ : Type} [DecidableEq κ] (key : α → κ) (k : Nat) :
    List α → List κ → List α
  | [], _ => []
  | x :: rest, seen =>
    if key x ∈ seen then dedupTakeBy key k rest seen
    else if k ≤ 1 then [x]
    else x :: dedupTakeBy key (k - 1) rest (key x :: seen)

/-- The dedup key `(r["doc_path"], r["page_start"])` of a score-annotated
row. -/
def rowScoredKey (p : Row × Rat) : String × Nat := (p.1.doc_path, p.1.page_start)

/-- The unified result shape of `app._row_to_result`. -/
structure RowResult where
  title : String
  year : Option String
  page : Nat
  snippet : String
  path : String
  organism : Option String
  stressor : Option String
  platform : Option String
deriving DecidableEq, Inhabited, Repr

/-- `app._row_to_result(r)`: 400-character snippet plus an ellipsis marker
when truncation happened. -/
def row_to_result (r : Row) : RowResult :=
  { title := r.doc_title
    year := r.year
    page := r.page_start
    snippet := if 400 < r.text.length then pyTake r.text 400 ++ "..." else r.text
    path := r.doc_path
    organism := r.organism
    stressor := r.stressor
    platform := r.platform }

/-- A `/search` result item: `_row_to_result` output plus the score. -/
structure SearchItem where
  res : RowResult
  score : Rat
deriving DecidableEq, Inhabited, Repr

/-- The context row shape assembled by `app._pick_context`. -/
structure Ctx where
  title : String
  year : Option String
  page : Nat
  path : String
  snippet : String
deriving DecidableEq, Inhabited, Repr

/-- One `_pick_context` output row: the 800-character generation snippet. -/
def rowToCtx (r : Row) : Ctx :=
  { title := r.doc_title
    year := r.year
    page := r.page_start
    path := r.doc_path
    snippet := pyTake r.text 800 }

/-- The error payload returned by `/search`, `/ask` and `/ask-simple` when
no index is loaded. -/
def indexMissingMsg : String :=
  "Index missing. Set BOOT_MODE=full and run ingest to build FAISS."

/-- `app._pick_context(question, top_k, organism, stressor, platform,
paths)`.  `indexLoaded` models `index is not None and faiss is not None`;
`searchFn` is the external embed-then-FAISS-search oracle returning
(inner-product score, metadata ordinal) pairs.  With a truthy `paths` the
vector search is bypassed; with no index the `elif` guard fails silently
and `rows` stays the whole metadata sequence. -/
def pick_context (meta : List Row) (indexLoaded : Bool)
    (searchFn : String → Nat → List (Rat × Nat)) (question : Option String)
    (top_k : Nat) (organism stressor platform : Option String)
    (paths : Option (List String)) : List Ctx :=
  let rows :=
    if listTruthy paths then
      meta.filter (fun r => (paths.getD []).contains r.doc_path)
    else if optTruthy question && indexLoaded then
      let hits := searchFn (question.getD "") (max 30 (top_k * 4))
      let scored := hits.map (fun h => ((meta.getD h.2 default), h.1))
      (dedupTakeBy rowScoredKey top_k scored []).map Prod.fst
    else meta
  let rows := applyFiltersRow organism stressor platform rows
  (rows.take top_k).map rowToCtx

/-- The `/search` endpoint (retrieval part): searches the index for exactly
`top_k` neighbors, maps hits through `_row_to_result`, attaches scores and
dedups per `(path, page)` without a cap. -/
def searchEndpoint (meta : List Row) (indexLoaded : Bool)
    (searchFn : String → Nat → List (Rat × Nat)) (q : String) (top_k : Nat) :
    Except String (List SearchItem) :=
  if !indexLoaded then .error indexMissingMsg
  else
    let hits := searchFn q top_k
    let items := hits.map
      (fun h => SearchItem.mk (row_to_result (meta.getD h.2 default)) h.1)
    .ok (firstOccBy (fun it => (it.res.path, it.res.page)) items [])

/-- The `/ask` endpoint (retrieval part, source lines 463-479): over-fetch
`max(30, top_k*4)` neighbors, attach scores, filter by facets, then dedup
by `(doc_path, page_start)` capped at `top_k`.  The selected rows are handed
in full to `build_prompt`. -/
def askSelect (meta : List Row) (indexLoaded : Bool)
    (searchFn : String → Nat → List (Rat × Nat)) (question : String)
    (top_k : Nat) (organism stressor platform : Option String) :
    Except String (List (Row × Rat)) :=
  if !indexLoaded then .error indexMissingMsg
  else
    let hits := searchFn question (max 30 (top_k * 4))
    let rows := hits.map (fun h => ((meta.getD h.2 default), h.1))
    let rows := applyFiltersScored organism stressor platform rows
    .ok (dedupTakeBy rowScoredKey top_k rows [])

/-- The facet guesses of `/ask-simple`: `_guess_from_text` against the three
vocabularies. -/
def guessTriple (question : String) :
    Option String × Option String × Option String :=
  (guess_from_text (some question) ORGANISMS,
   guess_from_text (some question) STRESSORS,
   guess_from_text (some question) PLATFORMS)

/-- One dimension of the rerank bonus test: the guess must be truthy and
equal the row's facet. -/
def guessMatch (g rv : Option String) : Bool := optTruthy g && rv == g

/-- The `bonus(r)` closure of `/ask-simple`: 0.05 per matching dimension. -/
def bonus (g : Option String × Option String × Option String) (r : Row) : Rat :=
  (if guessMatch g.1 r.organism then (1 : Rat) / 20 else 0) +
  (if guessMatch g.2.1 r.stressor then (1 : Rat) / 20 else 0) +
  (if guessMatch g.2.2 r.platform then (1 : Rat) / 20 else 0)

/-- The sort key of `/ask-simple`: `r["score"] + bonus(r)`. -/
def adjScore (g : Option String × Option String × Option String)
    (p : Row × Rat) : Rat :=
  p.2 + bonus g p.1

/-- Stable descending insertion: skip over strictly larger keys, so an
element inserted later (originally earlier in the list) lands before
equal keys.  Any stable sort produces the same output as Python's stable
`list.sort(key=..., reverse=True)`. -/
def insertDesc {α : Type} (key : α → Rat) (x : α) : List α → List α
  | [] => [x]
  | y :: ys => if key x < key y then y :: insertDesc key x ys else x :: y :: ys

/-- Stable descending sort by a rational key. -/
def sortDesc {α : Type} (key : α → Rat) : List α → List α
  | [] => []
  | x :: xs => insertDesc key x (sortDesc key xs)

/-- The `/ask-simple` endpoint (retrieval part, source lines 502-530):
over-fetch, guess facets from the question, stable-sort descending by
`score + bonus`, then dedup capped at `top_k`. -/
def askSimpleSelect (meta : List Row) (indexLoaded : Bool)
    (searchFn : String → Nat → List (Rat × Nat)) (question : String)
    (top_k : Nat) : Except String (List (Row × Rat)) :=
  if !indexLoaded then .error indexMissingMsg
  else
    let hits := searchFn question (max 30 (top_k * 4))
    let rows := hits.map (fun h => ((meta.getD h.2 default), h.1))
    let g := guessTriple question
    let rows := sortDesc (adjScore g) rows
    .ok (dedupTakeBy rowScoredKey top_k rows [])

/-- One block of `build_prompt`'s `context_block`:
`f"[{i+1}] {c['doc_title']} (p.{c.get('page_start','?')})\n{c['text']}"` —
the row's text enters the prompt untruncated. -/
def promptEntry (i : Nat) (r : Row) : String :=
  "[" ++ toString (i + 1) ++ "] " ++ r.doc_title ++ " (p." ++
    toString r.page_start ++ ")\n" ++ r.text

/-- The enumerated prompt blocks of `build_prompt`. -/
def promptEntries (i : Nat) : List Row → List String
  | [] => []
  | r :: rest => promptEntry i r :: promptEntries (i + 1) rest

/-- The `context_block` string of `rag_core.build_prompt`. -/
def build_prompt_context_block (contexts : List Row) : String :=
  joinSep "\n\n---\n\n" (promptEntries 0 contexts)

/-! ## `ingest.py` -/

/-- Python `s.splitlines()` (newline-only model, sufficient for the inputs
used here): cut at every `'\n'`, keeping interior empty lines but no
trailing empty line. -/
def pySplitlinesGo : List Char → List Char → List String
  | cur, [] => if cur.isEmpty then [] else [cur.reverse.asString]
  | cur, c :: rest =>
    if c == '\n' then cur.reverse.asString :: pySplitlinesGo [] rest
    else pySplitlinesGo (c :: cur) rest

/-- Python `s.splitlines()`. -/
def pySplitlines (s : String) : List String := pySplitlinesGo [] s.toList

/-- `os.path.basename`: the part after the last `'/'`. -/
def basename (p : String) : String :=
  ((p.toList.reverse.takeWhile (fun c => c ≠ '/')).reverse).asString

/-- The candidate years `range(1980, 2036)` of `guess_title_year`. -/
def yearsList : List Nat := List.range' 1980 56

/-- The first (numerically smallest) candidate year occurring as a substring
of a line, as the inner loop of `guess_title_year` finds it. -/
def lineYear (l : String) : Option String :=
  (yearsList.find? (fun y => isSubstr (toString y) l)).map toString

/-- The outer year loop of `guess_title_year`: the first of the lines that
contains any candidate year. -/
def firstYear : List String → Option String
  | [] => none
  | l :: rest =>
    match lineYear l with
    | some y => some y
    | none => firstYear rest

/-- `ingest.guess_title_year(path, pages)`: title is the first of the first
ten lines of page one whose stripped form has more than 10 characters
(else the file's basename); year is scanned from the same lines. -/
def guess_title_year (path : String) (pages : List (Nat × String)) :
    String × Option String :=
  let firstLines :=
    match pages with
    | [] => []
    | pg :: _ => (pySplitlines pg.2).take 10
  let title :=
    match firstLines.find? (fun l => 10 < (pyStrip l).length) with
    | some l => pyStrip l
    | none => basename path
  (title, firstYear firstLines)

/-- One chunk record of `run_ingest` (the dict literal at source lines
66-77). -/
def mkRecord (p title : String) (year og st pl : Option String)
    (pageNo cursor : Nat) (ch : String) : Row :=
  { id := cursor
    doc_path := p
    doc_title := title
    year := year
    page_start := pageNo
    page_end := pageNo
    organism := og
    stressor := st
    platform := pl
    text := ch }

/-- The inner chunk loop of `run_ingest`: append one record and one embed
text per chunk, advancing the cursor.  Returns the records, the texts and
the final cursor. -/
def chunkRecords (p title : String) (year og st pl : Option String)
    (pageNo : Nat) : Nat → List String → List Row × List String × Nat
  | cursor, [] => ([], [], cursor)
  | cursor, ch :: rest =>
    let r := chunkRecords p title year og st pl pageNo (cursor + 1) rest
    (mkRecord p title year og st pl pageNo cursor ch :: r.1, ch :: r.2.1, r.2.2)

/-- The page loop of `run_ingest`: skip pages whose stripped text is empty,
chunk the rest with the default budget 900 / overlap 200.  `none` models a
diverging `chunk_text` call (impossible at overlap 200). -/
def pagesRecords (tl : String → Nat) (p title : String)
    (year og st pl : Option String) :
    Nat → List (Nat × String) → Option (List Row × List String × Nat)
  | cursor, [] => some ([], [], cursor)
  | cursor, (pageNo, txt) :: rest =>
    if pyStrip txt = "" then pagesRecords tl p title year og st pl cursor rest
    else
      match chunk_text tl txt 900 200 with
      | none => none
      | some chunks =>
        let r := chunkRecords p title year og st pl pageNo cursor chunks
        match pagesRecords tl p title year og st pl r.2.2 rest with
        | none => none
        | some (rs2, ts2, c2) => some (r.1 ++ rs2, r.2.1 ++ ts2, c2)

/-- The document loop of `run_ingest`: skip documents whose pages are all
empty, tag the concatenated full text, then process the pages. -/
def docsRecords (tl : String → Nat) :
    Nat → List (String × List (Nat × String)) →
    Option (List Row × List String × Nat)
  | cursor, [] => some ([], [], cursor)
  | cursor, (p, pages) :: rest =>
    if pages.all (fun pg => pg.2 = "") then docsRecords tl cursor rest
    else
      let ty := guess_title_year p pages
      let full := joinSep "\n" (pages.map Prod.snd)
      let og := tag_text full ORGANISMS
      let st := tag_text full STRESSORS
      let pl := tag_text full PLATFORMS
      match pagesRecords tl p ty.1 ty.2 og st pl cursor pages with
      | none => none
      | some (rs, ts, c1) =>
        match docsRecords tl c1 rest with
        | none => none
        | some (rs2, ts2, c2) => some (rs ++ rs2, ts ++ ts2, c2)

/-- `ingest.run_ingest` up to the embedding step: the metadata records and
the parallel `texts_for_embed` sequence, built from the extracted documents
(each document is its path together with its (page number, page text)
pairs).  The vector at ordinal `i` of the built index is the normalized
embedding of `texts_for_embed[i]`. -/
def runIngest (tl : String → Nat)
    (docs : List (String × List (Nat × String))) :
    Option (List Row × List String) :=
  (docsRecords tl 0 docs).map (fun x => (x.1, x.2.1))

/-! ## Concrete inputs used by the counterexamples and witnesses -/

/-- A word repeated `n` times, space-separated. -/
def repWords (n : Nat) (w : String) : String := joinWords (List.replicate n w)

/-- 130 one-letter words: a greedy chunk with more than 120 words. -/
def c2TextA : String := repWords 130 "a"

/-- 20 one-letter words: the following chunk. -/
def c2TextB : String := repWords 20 "b"

/-- A page whose two paragraphs flush as two greedy chunks at budget 145. -/
def c2Page : String := c2TextA ++ "\n\n" ++ c2TextB

/-- A word is nonempty and contains no whitespace (the invariant of
`pySplit` outputs). -/
def goodWord (w : String) : Prop :=
  w.toList ≠ [] ∧ ∀ c ∈ w.toList, isPySpace c = false

/-- A sample metadata row. -/
def rowA : Row :=
  { id := 0, doc_path := "d/x.pdf", doc_title := "X", year := some "2020",
    page_start := 1, page_end := 1, organism := some "rodent",
    stressor := none, platform := none, text := "hello world" }

/-- A row whose three facets all match the guess triple used in the rerank
witness. -/
def rowMatch : Row :=
  { id := 7, doc_path := "m.pdf", doc_title := "M", year := none,
    page_start := 4, page_end := 4, organism := some "rodent",
    stressor := some "microgravity", platform := some "ISS",
    text := "mice in microgravity on the iss" }

/-- Two rows on the same `(doc_path, page_start)` pair. -/
def rowP1 : Row :=
  { id := 0, doc_path := "X.pdf", doc_title := "X", year := none,
    page_start := 2, page_end := 2, organism := none, stressor := none,
    platform := none, text := "chunk one" }

/-- Second chunk of the same page of the same document. -/
def rowP2 : Row :=
  { id := 1, doc_path := "X.pdf", doc_title := "X", year := none,
    page_start := 2, page_end := 2, organism := none, stressor := none,
    platform := none, text := "chunk two" }

/-- A 1000-character chunk text. -/
def longText : String := (List.replicate 1000 'x').asString

/-- A row whose chunk text exceeds 800 characters. -/
def rowLong : Row :=
  { id := 0, doc_path := "L.pdf", doc_title := "Long", year := none,
    page_start := 3, page_end := 3, organism := none, stressor := none,
    platform := none, text := longText }

/-- An oracle returning no hits. -/
def oracleEmpty : String → Nat → List (Rat × Nat) := fun _ _ => []

/-- An oracle that returns a hit only when asked for exactly 40 neighbors
(the width `max(30, 10*4)` the claim says `/search` uses at `top_k = 10`). -/
def oracleW40 : String → Nat → List (Rat × Nat) :=
  fun _ w => if w = 40 then [((1 : Rat), 0)] else []

/-- An oracle that always returns ordinal 0 with score 1. -/
def oracleHit : String → Nat → List (Rat × Nat) := fun _ _ => [((1 : Rat), 0)]

/-- An oracle that returns a hit for every positive neighbor count (it
agrees with `oracleHit` except at width 0). -/
def oracleNZ : String → Nat → List (Rat × Nat) :=
  fun _ w => if w = 0 then [] else [((1 : Rat), 0)]

/-- A single-document corpus for the ingest witness. -/
def ingestDocs : List (String × List (Nat × String)) := [("d.pdf", [(1, "a b")])]

/-! ## Helper lemmas: strings and words -/

theorem toList_asString (l : List Char) : l.asString.toList = l := rfl

theorem asString_toList (s : String) : s.toList.asString = s := rfl

theorem string_toList_append (s t : String) :
    (s ++ t).toList = s.toList ++ t.toList := rfl

theorem asString_length (l : List Char) : l.asString.length = l.length := rfl

/-- A run of whitespace at the end of the input adds no words. -/
theorem wordsAux_ws_only (t : List Char) (ht : ∀ c ∈ t, isPySpace c = true) :
    ∀ cur, wordsAux cur t = wordsAux cur [] := by
  induction t with
  | nil => intro cur; rfl
  | cons c rest ih =>
    intro cur
    have hc : isPySpace c = true := ht c (by simp)
    have ht' : ∀ d ∈ rest, isPySpace d = true := fun d hd => ht d (by simp [hd])
    by_cases hcur : cur.isEmpty
    · simp only [wordsAux, hc, if_true, hcur]
      rw [ih ht' []]
      simp [wordsAux, hcur]
    · simp only [wordsAux, hc, if_true, hcur]
      rw [ih ht' []]
      simp [wordsAux, hcur]

/-- Appending trailing whitespace does not change the word list. -/
theorem wordsAux_append_ws (t : List Char) (ht : ∀ c ∈ t, isPySpace c = true) :
    ∀ (l : List Char) (cur : List Char), wordsAux cur (l ++ t) = wordsAux cur l := by
  intro l
  induction l with
  | nil => intro cur; exact wordsAux_ws_only t ht cur
  | cons c rest ih =>
    intro cur
    rw [List.cons_append]
    unfold wordsAux
    by_cases hc : isPySpace c <;> by_cases hcur : cur.isEmpty <;>
      simp [hc, hcur, ih]

/-- Dropping leading whitespace does not change the word list. -/
theorem wordsAux_dropWhile (l : List Char) :
    wordsAux [] (l.dropWhile isPySpace) = wordsAux [] l := by
  induction l with
  | nil => rfl
  | cons c rest ih =>
    by_cases hc : isPySpace c
    · rw [List.dropWhile_cons_of_pos hc, ih]
      simp [wordsAux, hc]
    · rw [List.dropWhile_cons_of_neg hc]

/-- Stripping does not change the word list. -/
theorem wordsAux_pyStripL (l : List Char) :
    wordsAux [] (pyStripL l) = wordsAux [] l := by
  set m := l.dropWhile isPySpace with hm
  have hdecomp : m = pyStripL l ++ (m.reverse.takeWhile isPySpace).reverse := by
    conv_lhs => rw [← List.reverse_reverse m,
      ← List.takeWhile_append_dropWhile isPySpace m.reverse]
    rw [List.reverse_append]
    rfl
  have hws : ∀ c ∈ (m.reverse.takeWhile isPySpace).reverse, isPySpace c = true := by
    intro c hc
    rw [List.mem_reverse] at hc
    exact List.mem_takeWhile_imp hc
  calc wordsAux [] (pyStripL l)
      = wordsAux [] (pyStripL l ++ (m.reverse.takeWhile isPySpace).reverse) :=
        (wordsAux_append_ws _ hws _ _).symm
    _ = wordsAux [] m := by rw [← hdecomp]
    _ = wordsAux [] l := wordsAux_dropWhile l

/-- Stripping does not change the token count. -/
theorem tokenize_len_pyStrip (s : String) :
    tokenize_len (pyStrip s) = tokenize_len s := by
  unfold tokenize_len pySplit pyStrip
  rw [toList_asString, wordsAux_pyStripL]

/-- A whitespace separator splits the word computation. -/
theorem wordsAux_sep (sp : Char) (hsp : isPySpace sp = true) (b : List Char) :
    ∀ (a : List Char) (cur : List Char),
      wordsAux cur (a ++ sp :: b) = wordsAux cur a ++ wordsAux [] b := by
  intro a
  induction a with
  | nil =>
    intro cur
    by_cases hcur : cur.isEmpty
    · simp [wordsAux, hsp, hcur]
    · simp [wordsAux, hsp, hcur]
  | cons c rest ih =>
    intro cur
    by_cases hc : isPySpace c
    · by_cases hcur : cur.isEmpty
      · simp [wordsAux, hc, hcur, ih]
      · simp [wordsAux, hc, hcur, ih]
    · simp [wordsAux, hc, ih]

/-- Every word produced by the splitter is nonempty and whitespace-free. -/
theorem wordsAux_good :
    ∀ (l cur : List Char), (∀ c ∈ cur, isPySpace c = false) →
      ∀ w ∈ wordsAux cur l, goodWord w := by
  intro l
  induction l with
  | nil =>
    intro cur hcur w hw
    by_cases h : cur.isEmpty
    · simp [wordsAux, h] at hw
    · unfold wordsAux at hw
      simp only [h, Bool.false_eq_true, if_false, List.mem_singleton] at hw
      subst hw
      refine ⟨?_, ?_⟩
      · rw [toList_asString]
        simp only [ne_eq, List.reverse_eq_nil_iff]
        intro hnil
        rw [hnil] at h
        simp at h
      · intro c hc
        rw [toList_asString, List.mem_reverse] at hc
        exact hcur c hc
  | cons c rest ih =>
    intro cur hcur w hw
    unfold wordsAux at hw
    by_cases hc : isPySpace c
    · by_cases h : cur.isEmpty
      · simp only [hc, if_true, h] at hw
        exact ih [] (by simp) w hw
      · simp only [hc, if_true, h, Bool.false_eq_true, if_false,
          List.mem_cons] at hw
        rcases hw with hw | hw
        · subst hw
          refine ⟨?_, ?_⟩
          · rw [toList_asString]
            simp only [ne_eq, List.reverse_eq_nil_iff]
            intro hnil
            rw [hnil] at h
            simp at h
          · intro d hd
            rw [toList_asString, List.mem_reverse] at hd
            exact hcur d hd
        · exact ih [] (by simp) w hw
    · simp only [hc, Bool.false_eq_true, if_false] at hw
      refine ih (c :: cur) ?_ w hw
      intro d hd
      rcases List.mem_cons.mp hd with hd | hd
      · subst hd; exact Bool.eq_false_iff.mpr hc
      · exact hcur d hd

/-- On a whitespace-free suffix the splitter yields a single word. -/
theorem wordsAux_all_nonws :
    ∀ (l cur : List Char), (cur ≠ [] ∨ l ≠ []) →
      (∀ c ∈ l, isPySpace c = false) →
      wordsAux cur l = [(cur.reverse ++ l).asString] := by
  intro l
  induction l with
  | nil =>
    intro cur hne _
    rcases hne with h | h
    · have : ¬ cur.isEmpty := by simpa [List.isEmpty_iff] using h
      simp [wordsAux, this]
    · simp at h
  | cons c rest ih =>
    intro cur _ hl
    have hc : isPySpace c = false := hl c (by simp)
    simp only [wordsAux, hc, Bool.false_eq_true, if_false]
    rw [ih (c :: cur) (Or.inl (by simp)) (fun d hd => hl d (by simp [hd]))]
    simp

/-- A good word splits into itself. -/
theorem pySplit_good (w : String) (h : goodWord w) : pySplit w = [w] := by
  unfold pySplit
  rw [wordsAux_all_nonws w.toList [] (Or.inr h.1) h.2]
  rw [List.reverse_nil, List.nil_append, asString_toList]

/-- Joining good words and re-splitting recovers the word list. -/
theorem pySplit_joinWords :
    ∀ l : List String, (∀ w ∈ l, goodWord w) → pySplit (joinWords l) = l := by
  intro l
  induction l with
  | nil => intro _; rfl
  | cons w rest ih =>
    intro hgood
    cases rest with
    | nil => exact pySplit_good w (hgood w (by simp))
    | cons x rest' =>
      show pySplit (w ++ " " ++ joinWords (x :: rest')) = w :: x :: rest'
      unfold pySplit
      have htl : (w ++ " " ++ joinWords (x :: rest')).toList
          = w.toList ++ ' ' :: (joinWords (x :: rest')).toList := by
        rw [string_toList_append, string_toList_append, List.append_assoc]
        rfl
      rw [htl, wordsAux_sep ' ' (by decide) _ w.toList []]
      have h1 : wordsAux [] w.toList = [w] := pySplit_good w (hgood w (by simp))
      have h2 : wordsAux [] (joinWords (x :: rest')).toList = x :: rest' :=
        ih (fun v hv => hgood v (by simp [hv]))
      rw [h1, h2]
      rfl

/-- Token count of a joined list of good words is its length. -/
theorem tokenize_len_joinWords (l : List String) (h : ∀ w ∈ l, goodWord w) :
    tokenize_len (joinWords l) = l.length := by
  unfold tokenize_len
  rw [pySplit_joinWords l h]

/-! ## Chunker invariants -/

/-- Every hard-split window of good words has at most 300 tokens. -/
theorem hardSplitGo_tok :
    ∀ (fuel : Nat) (ws : List String) (inc1 : Nat),
      (∀ w ∈ ws, goodWord w) →
      ∀ c ∈ hardSplitGo inc1 fuel ws, tokenize_len c ≤ 300 := by
  intro fuel
  induction fuel with
  | zero =>
    intro ws inc1 _ c hc
    cases ws with
    | nil => simp [hardSplitGo] at hc
    | cons w rest => simp [hardSplitGo] at hc
  | succ fuel ih =>
    intro ws inc1 hgood c hc
    cases ws with
    | nil => simp [hardSplitGo] at hc
    | cons w rest =>
      simp only [hardSplitGo, List.mem_cons] at hc
      rcases hc with hc | hc
      · subst hc
        have hg : ∀ v ∈ (w :: rest).take 300, goodWord v :=
          fun v hv => hgood v (List.take_subset 300 (w :: rest) hv)
        rw [tokenize_len_joinWords _ hg, List.length_take]
        exact min_le_left _ _
      · exact ih _ inc1
          (fun v hv => hgood v (List.drop_subset (inc1 + 1) (w :: rest) hv)) c hc

/-- Every word of a `pySplit` output is good. -/
theorem pySplit_words_good (s : String) : ∀ w ∈ pySplit s, goodWord w :=
  wordsAux_good s.toList [] (by simp)

/-- The empty buffer has no tokens. -/
theorem tokenize_len_empty : tokenize_len "" = 0 := rfl

/-- Greedy-loop invariant: when the loop terminates, every produced chunk
either fits the token budget or is a hard-split window of at most 300
words. -/
theorem greedy_tok :
    ∀ (cands : List String) (buff : String) (acc : List String)
      (T O : Nat) (cs : List String),
      tokenize_len buff ≤ T →
      (∀ c ∈ acc, tokenize_len c ≤ T ∨ tokenize_len c ≤ 300) →
      greedy tokenize_len T O cands buff acc = some cs →
      ∀ c ∈ cs, tokenize_len c ≤ T ∨ tokenize_len c ≤ 300 := by
  intro cands
  induction cands with
  | nil =>
    intro buff acc T O cs hbuff hacc hrun c hc
    simp only [greedy, Option.some.injEq] at hrun
    subst hrun
    rw [List.mem_reverse] at hc
    by_cases hb : buff = ""
    · simp only [hb, if_true] at hc
      exact hacc c hc
    · simp only [hb, if_false] at hc
      rcases List.mem_cons.mp hc with hc | hc
      · subst hc; exact Or.inl hbuff
      · exact hacc c hc
  | cons piece rest ih =>
    intro buff acc T O cs hbuff hacc hrun c hc
    simp only [greedy] at hrun
    by_cases hp : pyStrip piece = ""
    · rw [if_pos hp] at hrun
      exact ih buff acc T O cs hbuff hacc hrun c hc
    · rw [if_neg hp] at hrun
      set p := pyStrip piece with hpdef
      set cat := buff ++ (if buff = "" then "" else "\n") ++ p with hcat
      by_cases h1 : tokenize_len cat ≤ T
      · rw [if_pos h1] at hrun
        refine ih _ acc T O cs ?_ hacc hrun c hc
        rw [tokenize_len_pyStrip]
        exact h1
      · rw [if_neg h1] at hrun
        have hacc1 : ∀ d ∈ (if buff = "" then acc else buff :: acc),
            tokenize_len d ≤ T ∨ tokenize_len d ≤ 300 := by
          intro d hd
          by_cases hb : buff = ""
          · rw [if_pos hb] at hd; exact hacc d hd
          · rw [if_neg hb] at hd
            rcases List.mem_cons.mp hd with hd | hd
            · subst hd; exact Or.inl hbuff
            · exact hacc d hd
        by_cases h2 : tokenize_len p ≤ T
        · rw [if_pos h2] at hrun
          exact ih p _ T O cs h2 hacc1 hrun c hc
        · rw [if_neg h2] at hrun
          by_cases h3 : (300 - O / 3) = 0
          · rw [if_pos h3] at hrun; exact absurd hrun (by simp)
          · rw [if_neg h3] at hrun
            refine ih "" _ T O cs (by rw [tokenize_len_empty]; omega) ?_ hrun c hc
            intro d hd
            rcases List.mem_append.mp hd with hd | hd
            · rw [List.mem_reverse] at hd
              exact Or.inr (hardSplitGo_tok _ _ _ (pySplit_words_good p) d hd)
            · exact hacc1 d hd

/-- Post-processing invariant: every output chunk either comes from the
input list or is a merged chunk that fits the budget. -/
theorem ppGo_tok :
    ∀ (input acc : List String) (T : Nat),
      (∀ c ∈ input, tokenize_len c ≤ T ∨ tokenize_len c ≤ 300) →
      (∀ c ∈ acc, tokenize_len c ≤ T ∨ tokenize_len c ≤ 300) →
      ∀ c ∈ ppGo tokenize_len T acc input,
        tokenize_len c ≤ T ∨ tokenize_len c ≤ 300 := by
  intro input
  induction input with
  | nil =>
    intro acc T _ hacc c hc
    simp only [ppGo, List.mem_reverse] at hc
    exact hacc c hc
  | cons x rest ih =>
    intro acc T hinput hacc c hc
    have hx : tokenize_len x ≤ T ∨ tokenize_len x ≤ 300 := hinput x (by simp)
    have hrest : ∀ d ∈ rest, tokenize_len d ≤ T ∨ tokenize_len d ≤ 300 :=
      fun d hd => hinput d (by simp [hd])
    cases acc with
    | nil =>
      simp only [ppGo] at hc
      refine ih [x] T hrest ?_ c hc
      intro d hd
      rcases List.mem_singleton.mp hd with hd
      subst hd; exact hx
    | cons prev accT =>
      simp only [ppGo] at hc
      by_cases hm : tokenize_len (mergeTail prev x) ≤ T
      · rw [if_pos hm] at hc
        refine ih _ T hrest ?_ c hc
        intro d hd
        rcases List.mem_cons.mp hd with hd | hd
        · subst hd; exact Or.inl hm
        · exact hacc d (by simp [hd])
      · rw [if_neg hm] at hc
        refine ih _ T hrest ?_ c hc
        intro d hd
        rcases List.mem_cons.mp hd with hd | hd
        · subst hd; exact hx
        · exact hacc d hd

/-- C1 (counterexample): the claim "every chunk string in the sequence
returned by chunk_text(text, T, O) satisfies tokenize_len(chunk) ≤ T, with
the single-fallback-chunk path as the only exemption, in particular for the
hard-split-by-word-count path" is false at text `"a b"`, budget `T = 1`,
overlap `O = 0`: the single candidate exceeds the budget, the hard-split
path emits the 300-word window `"a b"` with 2 tokens, no fallback is taken
(the post-processed chunk list is nonempty), and `2 ≤ 1` fails. -/
theorem C1_counterexample :
    chunk_core tokenize_len "a b" 1 0 = some ["a b"] ∧
    chunk_text tokenize_len "a b" 1 0 = some ["a b"] ∧
    ¬ (tokenize_len "a b" ≤ 1) :=
  ⟨by decide, by decide, by decide⟩

/-- C1 (amended): every chunk produced by `chunk_text` (before the fallback,
which the claim already exempts) either satisfies the token budget `T` or is
a hard-split word window of at most 300 words — the greedy and tail-merge
paths are token-bounded by `T`, while the hard-split path is bounded only by
its fixed 300-word window size, which the budget does not control. -/
theorem C1_token_budget (text : String) (T O : Nat) (cs : List String)
    (h : chunk_core tokenize_len text T O = some cs) :
    ∀ c ∈ cs, tokenize_len c ≤ T ∨ tokenize_len c ≤ 300 := by
  unfold chunk_core at h
  cases hraw : chunk_rawChunks tokenize_len text T O with
  | none => rw [hraw] at h; simp at h
  | some raw =>
    rw [hraw] at h
    simp only [Option.map_some', Option.some.injEq] at h
    subst h
    have hall := greedy_tok (splitCandidates text) "" [] T O raw
      (by rw [tokenize_len_empty]; omega) (by simp) hraw
    intro c hc
    cases raw with
    | nil => simp [postProcess] at hc
    | cons x rest =>
      simp only [postProcess] at hc
      refine ppGo_tok rest [x] T (fun d hd => hall d (by simp [hd])) ?_ c hc
      intro d hd
      have hdx := List.mem_singleton.mp hd
      rw [hdx]
      exact hall _ (by simp)

/-- C1 (witness): the amended budget bound evaluated at the counterexample
input. -/
theorem C1_token_budget_witness :
    tokenize_len "a b" ≤ 1 ∨ tokenize_len "a b" ≤ 300 :=
  C1_token_budget "a b" 1 0 ["a b"] (by decide) "a b" (by simp)

set_option maxRecDepth 40000 in
/-- C2 (counterexample): the claim "if prefixing the current chunk with the
tail of the previous chunk fits the budget, the current chunk is emitted
with the tail merged in while the previous chunk is still emitted in full"
is false: at a page of 130 `a`-words, a paragraph break, and 20 `b`-words
with budget 145 and overlap 0, the greedy pass produces the two chunks
`c2TextA, c2TextB`, the tail-prefixed merge fits (140 ≤ 145), yet the final
output is the single merged chunk — `final[-1] = merged` replaces the
previous chunk, so its full form is not emitted and only one chunk remains
(the claimed Scenario A shape of ≥ 2 chunks also fails for the same
reason). -/
theorem C2_counterexample :
    chunk_rawChunks tokenize_len c2Page 145 0 = some [c2TextA, c2TextB] ∧
    tokenize_len (mergeTail c2TextA c2TextB) ≤ 145 ∧
    chunk_text tokenize_len c2Page 145 0 = some [mergeTail c2TextA c2TextB] ∧
    mergeTail c2TextA c2TextB ≠ c2TextA ∧
    (chunk_text tokenize_len c2Page 145 0).map List.length = some 1 :=
  ⟨by decide, by decide, by decide, by decide, by decide⟩

/-- C2 (amended): in the post-processing pass, when prefixing the current
chunk with the previous chunk's tail-context window keeps the combined token
count within the budget, the merged chunk REPLACES the previous chunk in the
output (the previous chunk's full form is dropped); in the two-chunk case
the result is exactly the single merged chunk. -/
theorem C2_tail_merge (tl : String → Nat) (T : Nat) (c1 c2 : String)
    (h : tl (mergeTail c1 c2) ≤ T) :
    postProcess tl T [c1, c2] = [mergeTail c1 c2] := by
  simp [postProcess, ppGo, h]

/-- C2 (witness): the replacement semantics evaluated at concrete chunks. -/
theorem C2_tail_merge_witness :
    postProcess tokenize_len 10 ["a", "b"] = [mergeTail "a" "b"] :=
  C2_tail_merge tokenize_len 10 "a" "b" (by decide)

/-! ## Deduplication lemmas -/

/-- Elements kept by the first-occurrence dedup have unseen keys. -/
theorem firstOccBy_key_not_seen {α κ : Type} [DecidableEq κ] (key : α → κ) :
    ∀ (l : List α) (seen : List κ) (x : α),
      x ∈ firstOccBy key l seen → key x ∉ seen := by
  intro l
  induction l with
  | nil => intro seen x hx; simp [firstOccBy] at hx
  | cons a rest ih =>
    intro seen x hx
    simp only [firstOccBy] at hx
    by_cases h : key a ∈ seen
    · rw [if_pos h] at hx
      exact ih seen x hx
    · rw [if_neg h] at hx
      rcases List.mem_cons.mp hx with hx | hx
      · subst hx; exact h
      · have hns := ih _ x hx
        intro hmem
        exact hns (by simp [hmem])

/-- The first-occurrence dedup output has pairwise distinct keys. -/
theorem firstOccBy_pairwise {α κ : Type} [DecidableEq κ] (key : α → κ) :
    ∀ (l : List α) (seen : List κ),
      (firstOccBy key l seen).Pairwise (fun a b => key a ≠ key b) := by
  intro l
  induction l with
  | nil => intro seen; simp [firstOccBy]
  | cons a rest ih =>
    intro seen
    simp only [firstOccBy]
    by_cases h : key a ∈ seen
    · rw [if_pos h]; exact ih seen
    · rw [if_neg h]
      refine List.Pairwise.cons ?_ (ih _)
      intro b hb he
      have hns := firstOccBy_key_not_seen key rest (key a :: seen) b hb
      exact hns (by simp [he.symm])

/-- The first-occurrence dedup output is a sublist of its input (so ranked
order is preserved and the retained row for each key is the first — hence
highest-ranked — one encountered). -/
theorem firstOccBy_sublist {α κ : Type} [DecidableEq κ] (key : α → κ) :
    ∀ (l : List α) (seen : List κ), List.Sublist (firstOccBy key l seen) l := by
  intro l
  induction l with
  | nil => intro seen; simp [firstOccBy]
  | cons a rest ih =>
    intro seen
    simp only [firstOccBy]
    by_cases h : key a ∈ seen
    · rw [if_pos h]; exact (ih seen).cons a
    · rw [if_neg h]; exact (ih _).cons₂ a

/-- The capped dedup loop equals first-occurrence dedup followed by
truncation.  (Because the loop's break fires after appending, `top_k = 0`
still yields one element, hence `max k 1`.) -/
theorem dedupTakeBy_eq {α κ : Type} [DecidableEq κ] (key : α → κ) :
    ∀ (l : List α) (k : Nat) (seen : List κ),
      dedupTakeBy key k l seen = (firstOccBy key l seen).take (max k 1) := by
  intro l
  induction l with
  | nil => intro k seen; simp [dedupTakeBy, firstOccBy]
  | cons a rest ih =>
    intro k seen
    simp only [dedupTakeBy, firstOccBy]
    by_cases h : key a ∈ seen
    · rw [if_pos h, if_pos h]; exact ih k seen
    · rw [if_neg h, if_neg h]
      by_cases hk : k ≤ 1
      · rw [if_pos hk]
        have h1 : max k 1 = 1 := by omega
        rw [h1]
        rfl
      · rw [if_neg hk]
        rw [ih (k - 1)]
        obtain ⟨k', rfl⟩ : ∃ k', k = k' + 1 := ⟨k - 1, by omega⟩
        have h1 : max (k' + 1) 1 = k' + 1 := by omega
        have h2 : max (k' + 1 - 1) 1 = k' := by omega
        rw [h1, h2, List.take_succ_cons]

/-- The capped dedup loop has pairwise distinct keys. -/
theorem dedupTakeBy_pairwise {α κ : Type} [DecidableEq κ] (key : α → κ)
    (l : List α) (k : Nat) (seen : List κ) :
    (dedupTakeBy key k l seen).Pairwise (fun a b => key a ≠ key b) := by
  rw [dedupTakeBy_eq]
  exact (firstOccBy_pairwise key l seen).sublist (List.take_sublist _ _)

/-- C3 (counterexample): the claim "every retrieval request without an
allowlist while no vector index is loaded fails with an explicit
IndexUnavailable-style error, for every retrieval entry point including the
mindmap/story context selection, never a silently metadata-substituted
result" is false: `_pick_context` has no failure channel at all, and with
no index, no allowlist and a nonempty question it silently serves the
metadata rows — here the full row `rowA` — as a successful context list. -/
theorem C3_counterexample :
    pick_context [rowA] false oracleEmpty (some "anything") 5 none none none
      none = [rowToCtx rowA] ∧
    ([rowToCtx rowA] : List Ctx) ≠ [] :=
  ⟨by decide, by decide⟩

/-- C3 (amended): the `/search`, `/ask` and `/ask-simple` endpoints do fail
with the explicit index-missing error when no index is loaded, but the
mindmap/story context selection (`_pick_context`) does not: without an
allowlist and without an index it silently returns the facet-filtered
metadata rows truncated to `top_k`, regardless of the question. -/
theorem C3_index_guard :
    (∀ (meta : List Row) (sf : String → Nat → List (Rat × Nat)) (q : String)
        (k : Nat), searchEndpoint meta false sf q k = .error indexMissingMsg) ∧
    (∀ (meta : List Row) (sf : String → Nat → List (Rat × Nat)) (q : String)
        (k : Nat) (o s p : Option String),
        askSelect meta false sf q k o s p = .error indexMissingMsg) ∧
    (∀ (meta : List Row) (sf : String → Nat → List (Rat × Nat)) (q : String)
        (k : Nat), askSimpleSelect meta false sf q k = .error indexMissingMsg) ∧
    (∀ (meta : List Row) (sf : String → Nat → List (Rat × Nat))
        (question : Option String) (k : Nat) (o s p : Option String),
        pick_context meta false sf question k o s p none
          = ((applyFiltersRow o s p meta).take k).map rowToCtx) := by
  refine ⟨fun _ _ _ _ => rfl, fun _ _ _ _ _ _ _ => rfl, fun _ _ _ _ => rfl, ?_⟩
  intro meta sf question k o s p
  simp [pick_context, listTruthy]

/-- C4 (counterexample): the claim "no two rows of a Retriever result set
share the same (doc_path, page_start) pair — including retrieval over an
explicit document-path allowlist" is false: the allowlist branch of
`_pick_context` performs no deduplication, so two chunks of the same page
of the allowlisted document are both returned. -/
theorem C4_counterexample :
    pick_context [rowP1, rowP2] true oracleEmpty none 5 none none none
      (some ["X.pdf"]) = [rowToCtx rowP1, rowToCtx rowP2] ∧
    (rowToCtx rowP1).path = (rowToCtx rowP2).path ∧
    (rowToCtx rowP1).page = (rowToCtx rowP2).page ∧
    rowToCtx rowP1 ≠ rowToCtx rowP2 :=
  ⟨by decide, by decide, by decide, by decide⟩

/-- C4 (amended): the dedup invariant does hold for the semantic retrieval
paths — `/ask`, `/search` and `/ask-simple` result sets have pairwise
distinct (doc_path, page_start) keys, and the capped dedup loop is exactly
first-occurrence dedup (the first, highest-ranked row per key is kept)
followed by truncation — but the explicit-allowlist path of `_pick_context`
performs no deduplication. -/
theorem C4_dedup (meta : List Row) (il : Bool)
    (sf : String → Nat → List (Rat × Nat)) (q : String) (k : Nat)
    (o s p : Option String) (selA : List (Row × Rat)) (out : List SearchItem)
    (selM : List (Row × Rat))
    (hA : askSelect meta il sf q k o s p = .ok selA)
    (hS : searchEndpoint meta il sf q k = .ok out)
    (hM : askSimpleSelect meta il sf q k = .ok selM) :
    selA.Pairwise (fun a b => rowScoredKey a ≠ rowScoredKey b) ∧
    out.Pairwise
      (fun a b => (a.res.path, a.res.page) ≠ (b.res.path, b.res.page)) ∧
    selM.Pairwise (fun a b => rowScoredKey a ≠ rowScoredKey b) ∧
    ∀ (l : List (Row × Rat)) (k' : Nat) (seen : List (String × Nat)),
      dedupTakeBy rowScoredKey k' l seen
        = (firstOccBy rowScoredKey l seen).take (max k' 1) := by
  cases il with
  | false => simp [askSelect] at hA
  | true =>
    simp only [askSelect, Bool.not_true, Bool.false_eq_true, if_false,
      Except.ok.injEq] at hA
    simp only [searchEndpoint, Bool.not_true, Bool.false_eq_true, if_false,
      Except.ok.injEq] at hS
    simp only [askSimpleSelect, Bool.not_true, Bool.false_eq_true, if_false,
      Except.ok.injEq] at hM
    refine ⟨hA ▸ dedupTakeBy_pairwise _ _ _ _,
            hS ▸ firstOccBy_pairwise _ _ _,
            hM ▸ dedupTakeBy_pairwise _ _ _ _,
            fun l k' seen => dedupTakeBy_eq rowScoredKey l k' seen⟩

/-- C4 (witness): the semantic dedup invariant evaluated at a one-row
corpus. -/
theorem C4_dedup_witness :
    ([(rowA, (1 : Rat))]).Pairwise (fun a b => rowScoredKey a ≠ rowScoredKey b) ∧
    ([SearchItem.mk (row_to_result rowA) 1]).Pairwise
      (fun a b => (a.res.path, a.res.page) ≠ (b.res.path, b.res.page)) ∧
    ([(rowA, (1 : Rat))]).Pairwise (fun a b => rowScoredKey a ≠ rowScoredKey b) ∧
    ∀ (l : List (Row × Rat)) (k' : Nat) (seen : List (String × Nat)),
      dedupTakeBy rowScoredKey k' l seen
        = (firstOccBy rowScoredKey l seen).take (max k' 1) :=
  C4_dedup [rowA] true oracleHit "q" 5 none none none
    [(rowA, 1)] [SearchItem.mk (row_to_result rowA) 1] [(rowA, 1)]
    rfl rfl rfl

/-! ## Tagger lemmas -/

/-- Characterization of the tagger's scanning loop: it returns the running
best unless some later label strictly beats the running score, in which
case it returns the first label attaining the maximum score. -/
theorem tagGo_spec (low : String) :
    ∀ (v : List (String × List String)) (best : Option String) (score : Nat),
      tagGo low v best score =
        if maxScoreV low v ≤ score then best
        else (v.find? (fun p => labelScore low p.2 = maxScoreV low v)).map
          Prod.fst := by
  intro v
  induction v with
  | nil =>
    intro best score
    simp [tagGo, maxScoreV]
  | cons hd rest ih =>
    intro best score
    obtain ⟨k, ts⟩ := hd
    simp only [tagGo, maxScoreV]
    by_cases h1 : score < labelScore low ts
    · rw [if_pos h1, ih]
      by_cases h2 : maxScoreV low rest ≤ labelScore low ts
      · have hmax : labelScore low ts ⊔ maxScoreV low rest = labelScore low ts :=
          by omega
        simp only [hmax]
        rw [if_pos h2, if_neg (by omega : ¬ (labelScore low ts ≤ score))]
        rw [List.find?_cons_of_pos _ (by simp)]
        rfl
      · have hmax : labelScore low ts ⊔ maxScoreV low rest = maxScoreV low rest :=
          by omega
        simp only [hmax]
        rw [if_neg h2, if_neg (by omega : ¬ (maxScoreV low rest ≤ score))]
        rw [List.find?_cons_of_neg _ (by simp; omega)]
    · rw [if_neg h1, ih]
      by_cases h2 : maxScoreV low rest ≤ score
      · rw [if_pos h2,
          if_pos (by omega : labelScore low ts ⊔ maxScoreV low rest ≤ score)]
      · have hmax : labelScore low ts ⊔ maxScoreV low rest = maxScoreV low rest :=
          by omega
        simp only [hmax]
        rw [if_neg h2, if_neg h2]
        rw [List.find?_cons_of_neg _ (by simp; omega)]

/-- C5 (counterexample): the claim "matching is case-insensitive for every
vocabulary term (e.g. the stressor surface term `GCR` matches text
containing that term in any letter case)" is false: `tag_text` lowercases
only the text, never the terms, so the uppercase term `"GCR"` can never
occur in the lowercased text — on the text `"GCR"` the code returns `none`
while the claimed case-insensitive tagger returns `some "radiation"`. -/
theorem C5_counterexample :
    tag_text "GCR" STRESSORS = none ∧
    tag_text_ci "GCR" STRESSORS = some "radiation" ∧
    pyLower "GCR" = "gcr" :=
  ⟨by decide, by decide, by decide⟩

/-- C5 (amended): `tag_text` returns the label whose surface terms achieve
the strictly highest count of substring occurrences of the RAW
(case-sensitive) terms in the LOWERCASED text — so terms containing an
uppercase letter never match — with ties going to the first-scanned label
and `none` when every label scores zero; formally it equals the
first-strict-maximum reference tagger built on that score. -/
theorem C5_first_strict_max (t : String) (vocab : List (String × List String)) :
    tag_text t vocab = firstStrictMaxLabel t vocab := by
  unfold tag_text firstStrictMaxLabel
  rw [tagGo_spec]
  by_cases h : maxScoreV (pyLower t) vocab = 0
  · rw [if_pos (by omega), if_pos h]
  · rw [if_neg (by omega), if_neg h]

/-- The `_guess_from_text` loop is the `tag_text` loop. -/
theorem guessGo_eq_tagGo (low : String) :
    ∀ (v : List (String × List String)) (best : Option String) (score : Nat),
      guessGo low v best score = tagGo low v best score := by
  intro v
  induction v with
  | nil => intro best score; rfl
  | cons hd rest ih =>
    intro best score
    obtain ⟨k, ts⟩ := hd
    simp only [guessGo, tagGo]
    by_cases h : score < labelScore low ts
    · rw [if_pos h, if_pos h, ih]
    · rw [if_neg h, if_neg h, ih]

/-- C10 (confirmed): for every non-null text string and every vocabulary,
the serving layer's `_guess_from_text` returns exactly the same label (or
none) as the core `tag_text` — `(txt or "")` is the identity on strings and
the scanning loops are identical. -/
theorem C10_guess_equals_tag (t : String)
    (vocab : List (String × List String)) :
    guess_from_text (some t) vocab = tag_text t vocab := by
  unfold guess_from_text tag_text
  rw [guessGo_eq_tagGo]
  rfl

/-- C6 (counterexample): the claim "the over-fetch width max(30, k×4) is
used by every semantic retrieval entry point, including the /search
endpoint" is false: with an oracle that has a hit only at width
`max(30, 10*4) = 40`, `/ask` (which does search 40 wide) finds the row
while `/search` at `top_k = 10` returns no results — `/search` searches
exactly `top_k` wide. -/
theorem C6_counterexample :
    searchEndpoint [rowA] true oracleW40 "q" 10 = .ok [] ∧
    askSelect [rowA] true oracleW40 "q" 10 none none none = .ok [(rowA, 1)] ∧
    max 30 (10 * 4) = 40 ∧
    oracleW40 "q" 40 = [((1 : Rat), 0)] ∧
    oracleW40 "q" 10 = [] :=
  ⟨rfl, rfl, rfl, rfl, rfl⟩

/-- C6 (amended): `/ask`, `/ask-simple` and the mindmap/story context
selection read the search oracle only at width `max(30, top_k × 4)`, while
`/search` reads it only at width `top_k`: two oracles agreeing at those
widths produce identical endpoint results. -/
theorem C6_search_width (meta : List Row) (il : Bool)
    (sf1 sf2 : String → Nat → List (Rat × Nat)) (q : String) (k : Nat)
    (o s p : Option String)
    (h1 : sf1 q (max 30 (k * 4)) = sf2 q (max 30 (k * 4)))
    (h2 : sf1 q k = sf2 q k) :
    askSelect meta il sf1 q k o s p = askSelect meta il sf2 q k o s p ∧
    askSimpleSelect meta il sf1 q k = askSimpleSelect meta il sf2 q k ∧
    pick_context meta il sf1 (some q) k o s p none
      = pick_context meta il sf2 (some q) k o s p none ∧
    searchEndpoint meta il sf1 q k = searchEndpoint meta il sf2 q k := by
  refine ⟨?_, ?_, ?_, ?_⟩
  · simp [askSelect, h1]
  · simp [askSimpleSelect, h1]
  · simp [pick_context, h1]
  · simp [searchEndpoint, h2]

/-- C6 (witness): the width extensionality applied to two oracles that
agree at widths 30 and 3 but differ at width 0. -/
theorem C6_search_width_witness :
    askSelect [rowA] true oracleHit "q" 3 none none none
      = askSelect [rowA] true oracleNZ "q" 3 none none none ∧
    askSimpleSelect [rowA] true oracleHit "q" 3
      = askSimpleSelect [rowA] true oracleNZ "q" 3 ∧
    pick_context [rowA] true oracleHit (some "q") 3 none none none none
      = pick_context [rowA] true oracleNZ (some "q") 3 none none none none ∧
    searchEndpoint [rowA] true oracleHit "q" 3
      = searchEndpoint [rowA] true oracleNZ "q" 3 :=
  C6_search_width [rowA] true oracleHit oracleNZ "q" 3 none none none rfl rfl

/-- Every piece of a joined list occurs inside the joined string. -/
theorem joinSep_contains (sep : String) :
    ∀ (l : List String) (x : String), x ∈ l →
      List.IsInfix x.toList (joinSep sep l).toList := by
  intro l
  induction l with
  | nil => intro x hx; simp at hx
  | cons w rest ih =>
    intro x hx
    cases rest with
    | nil =>
      have hx' := List.mem_singleton.mp hx
      subst hx'
      exact List.infix_refl _
    | cons y rest' =>
      rcases List.mem_cons.mp hx with hx | hx
      · subst hx
        show List.IsInfix x.toList ((x ++ sep ++ joinSep sep (y :: rest')).toList)
        rw [string_toList_append, string_toList_append, List.append_assoc]
        exact (List.prefix_append _ _).isInfix
      · have hinf := ih x hx
        refine hinf.trans ?_
        show List.IsInfix (joinSep sep (y :: rest')).toList
          ((w ++ sep ++ joinSep sep (y :: rest')).toList)
        rw [string_toList_append]
        exact (List.suffix_append _ _).isInfix

/-- Every row's text is a suffix of its prompt entry. -/
theorem promptEntries_suffix :
    ∀ (rows : List Row) (i : Nat) (r : Row), r ∈ rows →
      ∃ e ∈ promptEntries i rows, List.IsSuffix r.text.toList e.toList := by
  intro rows
  induction rows with
  | nil => intro i r hr; simp at hr
  | cons a rest ih =>
    intro i r hr
    rcases List.mem_cons.mp hr with hr | hr
    · subst hr
      refine ⟨promptEntry i r, by simp [promptEntries], ?_⟩
      unfold promptEntry
      rw [string_toList_append]
      exact List.suffix_append _ _
    · obtain ⟨e, he, hs⟩ := ih (i + 1) r hr
      exact ⟨e, by simp [promptEntries, he], hs⟩

set_option maxRecDepth 40000 in
/-- C7 (counterexample): the claim "every snippet handed to prompt
construction for generation is at most 800 characters long" is false:
`/ask` hands the selected rows to `build_prompt` with their full chunk
texts — here a 1000-character text — and the prompt context block embeds
that text untruncated, so the block itself exceeds 800 characters. -/
theorem C7_counterexample :
    askSelect [rowLong] true oracleHit "q" 5 none none none
      = .ok [(rowLong, 1)] ∧
    rowLong.text.length = 1000 ∧
    ¬ (rowLong.text.length ≤ 800) ∧
    ¬ ((build_prompt_context_block [rowLong]).length ≤ 800) :=
  ⟨rfl, by decide, by decide, by decide⟩

/-- C7 (amended): the two human/generation truncation lengths are real and
never conflated — `_row_to_result` snippets are at most 400 characters plus
a 3-character ellipsis and `_pick_context` snippets are at most 800
characters — but `/ask` and `/ask-simple` do not truncate: the prompt
context block embeds every selected row's text verbatim, so texts longer
than 800 characters reach generation untruncated. -/
theorem C7_truncation (r : Row) (meta : List Row) (il : Bool)
    (sf : String → Nat → List (Rat × Nat)) (question : Option String)
    (k : Nat) (o s p : Option String) (paths : Option (List String)) (c : Ctx)
    (hc : c ∈ pick_context meta il sf question k o s p paths)
    (rows : List Row) (r2 : Row) (h2 : r2 ∈ rows) :
    (row_to_result r).snippet.length ≤ 403 ∧
    c.snippet.length ≤ 800 ∧
    List.IsInfix r2.text.toList (build_prompt_context_block rows).toList := by
  refine ⟨?_, ?_, ?_⟩
  · unfold row_to_result
    by_cases h : 400 < r.text.length
    · simp only [if_pos h]
      rw [String.length_append]
      unfold pyTake
      rw [asString_length, List.length_take]
      have hlen : r.text.toList.length = r.text.length := rfl
      have hdots : ("..." : String).length = 3 := rfl
      omega
  -- the untruncated branch is already within the bound
    · simp only [if_neg h]
      omega
  · simp only [pick_context] at hc
    rcases List.mem_map.mp hc with ⟨r', _, hr'⟩
    subst hr'
    show (r'.text.toList.take 800).asString.length ≤ 800
    rw [asString_length, List.length_take]
    omega
  · obtain ⟨e, he, hs⟩ := promptEntries_suffix rows 0 r2 h2
    exact hs.isInfix.trans (joinSep_contains _ _ e he)

/-- C7 (witness): the truncation bounds and the verbatim prompt embedding
evaluated at concrete rows. -/
theorem C7_truncation_witness :
    (row_to_result rowA).snippet.length ≤ 403 ∧
    (rowToCtx rowA).snippet.length ≤ 800 ∧
    List.IsInfix rowLong.text.toList
      (build_prompt_context_block [rowLong]).toList :=
  C7_truncation rowA [rowA] false oracleEmpty none 5 none none none none
    (rowToCtx rowA) (by decide) [rowLong] rowLong (by simp)

/-! ## Stable-sort lemmas -/

/-- Membership in the stable descending insertion. -/
theorem mem_insertDesc {α : Type} (key : α → Rat) (x : α) :
    ∀ (l : List α) (a : α), a ∈ insertDesc key x l ↔ a = x ∨ a ∈ l := by
  intro l
  induction l with
  | nil => intro a; simp [insertDesc]
  | cons y ys ih =>
    intro a
    by_cases hk : key x < key y
    · simp only [insertDesc, if_pos hk, List.mem_cons, ih]
      tauto
    · simp only [insertDesc, if_neg hk, List.mem_cons]

/-- Insertion preserves descending sortedness. -/
theorem insertDesc_pairwise {α : Type} (key : α → Rat) (x : α) :
    ∀ (l : List α), l.Pairwise (fun a b => key b ≤ key a) →
      (insertDesc key x l).Pairwise (fun a b => key b ≤ key a) := by
  intro l
  induction l with
  | nil => intro _; simp [insertDesc]
  | cons y ys ih =>
    intro h
    rcases List.pairwise_cons.mp h with ⟨hy, hys⟩
    by_cases hk : key x < key y
    · simp only [insertDesc, if_pos hk]
      refine List.Pairwise.cons ?_ (ih hys)
      intro b hb
      rcases (mem_insertDesc key x ys b).mp hb with hb | hb
      · subst hb; exact le_of_lt hk
      · exact hy b hb
    · simp only [insertDesc, if_neg hk]
      refine List.Pairwise.cons ?_ h
      intro b hb
      rcases List.mem_cons.mp hb with hb | hb
      · subst hb; exact le_of_not_lt hk
      · exact le_trans (hy b hb) (le_of_not_lt hk)

/-- The stable descending sort is sorted (descending). -/
theorem sortDesc_pairwise {α : Type} (key : α → Rat) :
    ∀ l : List α, (sortDesc key l).Pairwise (fun a b => key b ≤ key a) := by
  intro l
  induction l with
  | nil => simp [sortDesc]
  | cons x xs ih => exact insertDesc_pairwise key x _ ih

/-- Filtering one key value through an insertion: the inserted element goes
to the front of its key class (it came earliest in the original order). -/
theorem filter_insertDesc {α : Type} (key : α → Rat) (x : α) (v : Rat) :
    ∀ l : List α,
      (insertDesc key x l).filter (fun a => decide (key a = v)) =
        if key x = v then x :: l.filter (fun a => decide (key a = v))
        else l.filter (fun a => decide (key a = v)) := by
  intro l
  induction l with
  | nil => by_cases h : key x = v <;> simp [insertDesc, h]
  | cons y ys ih =>
    by_cases hk : key x < key y
    · simp only [insertDesc, if_pos hk]
      by_cases hy : key y = v
      · have hx : ¬ key x = v := by
          intro he
          rw [he, hy] at hk
          exact lt_irrefl v hk
        simp [List.filter_cons, hy, ih, hx]
      · simp [List.filter_cons, hy, ih]
    · simp only [insertDesc, if_neg hk]
      by_cases hx : key x = v <;> simp [List.filter_cons, hx]

/-- Stability of the sort: restricted to any single key value, the sorted
list preserves the original order (ties are broken by original ranked
order). -/
theorem sortDesc_stable {α : Type} (key : α → Rat) (v : Rat) :
    ∀ l : List α,
      (sortDesc key l).filter (fun a => decide (key a = v)) =
        l.filter (fun a => decide (key a = v)) := by
  intro l
  induction l with
  | nil => rfl
  | cons x xs ih =>
    show (insertDesc key x (sortDesc key xs)).filter _ = _
    rw [filter_insertDesc]
    by_cases hx : key x = v
    · rw [if_pos hx, ih]
      simp [List.filter_cons, hx]
    · rw [if_neg hx, ih]
      simp [List.filter_cons, hx]

/-- The capped dedup output is a sublist of its input. -/
theorem dedupTakeBy_sublist {α κ : Type} [DecidableEq κ] (key : α → κ)
    (l : List α) (k : Nat) (seen : List κ) :
    List.Sublist (dedupTakeBy key k l seen) l := by
  rw [dedupTakeBy_eq]
  exact (List.take_sublist _ _).trans (firstOccBy_sublist key l seen)

/-- C8 (confirmed): in `/ask-simple` rerank mode the adjusted score is the
raw score plus 0.05 per matching non-null guessed facet dimension — the
bonus is additive, nonnegative and at most 0.15, equals exactly 0.15 when
all three dimensions match (so the adjusted score never drops below the raw
score), and the rows are re-sorted descending by adjusted score with a
stable sort (ties keep original ranked order) before deduplication and
truncation, so the selected rows come out in descending adjusted order. -/
theorem C8_rerank (meta : List Row) (sf : String → Nat → List (Rat × Nat))
    (q : String) (k : Nat) (sel : List (Row × Rat))
    (hsel : askSimpleSelect meta true sf q k = .ok sel)
    (g : Option String × Option String × Option String) (r : Row)
    (hm : guessMatch g.1 r.organism = true ∧
          guessMatch g.2.1 r.stressor = true ∧
          guessMatch g.2.2 r.platform = true) :
    (∀ (g' : Option String × Option String × Option String) (r' : Row),
        0 ≤ bonus g' r' ∧ bonus g' r' ≤ 3 / 20) ∧
    (∀ (g' : Option String × Option String × Option String) (r' : Row)
        (s : Rat), s ≤ s + bonus g' r') ∧
    bonus g r = 3 / 20 ∧
    (∀ (key : Row × Rat → Rat) (l : List (Row × Rat)),
        (sortDesc key l).Pairwise (fun a b => key b ≤ key a)) ∧
    (∀ (key : Row × Rat → Rat) (v : Rat) (l : List (Row × Rat)),
        (sortDesc key l).filter (fun a => decide (key a = v))
          = l.filter (fun a => decide (key a = v))) ∧
    sel.Pairwise (fun a b =>
      adjScore (guessTriple q) b ≤ adjScore (guessTriple q) a) := by
  have hbounds : ∀ (g' : Option String × Option String × Option String)
      (r' : Row), 0 ≤ bonus g' r' ∧ bonus g' r' ≤ 3 / 20 := by
    intro g' r'
    unfold bonus
    split_ifs <;> norm_num
  refine ⟨hbounds, ?_, ?_, fun key l => sortDesc_pairwise key l,
          fun key v l => sortDesc_stable key v l, ?_⟩
  · intro g' r' s
    have := (hbounds g' r').1
    linarith
  · unfold bonus
    rw [if_pos hm.1, if_pos hm.2.1, if_pos hm.2.2]
    norm_num
  · simp only [askSimpleSelect, Bool.not_true, Bool.false_eq_true, if_false,
      Except.ok.injEq] at hsel
    rw [← hsel]
    exact (sortDesc_pairwise _ _).sublist (dedupTakeBy_sublist _ _ _ _)

/-- C8 (witness): the rerank facts evaluated at a row matching all three
guessed facets. -/
theorem C8_rerank_witness :
    (∀ (g' : Option String × Option String × Option String) (r' : Row),
        0 ≤ bonus g' r' ∧ bonus g' r' ≤ 3 / 20) ∧
    (∀ (g' : Option String × Option String × Option String) (r' : Row)
        (s : Rat), s ≤ s + bonus g' r') ∧
    bonus (some "rodent", some "microgravity", some "ISS") rowMatch = 3 / 20 ∧
    (∀ (key : Row × Rat → Rat) (l : List (Row × Rat)),
        (sortDesc key l).Pairwise (fun a b => key b ≤ key a)) ∧
    (∀ (key : Row × Rat → Rat) (v : Rat) (l : List (Row × Rat)),
        (sortDesc key l).filter (fun a => decide (key a = v))
          = l.filter (fun a => decide (key a = v))) ∧
    ([(rowA, (1 : Rat))]).Pairwise (fun a b =>
      adjScore (guessTriple "q") b ≤ adjScore (guessTriple "q") a) :=
  C8_rerank [rowA] oracleHit "q" 5 [(rowA, 1)] rfl
    (some "rodent", some "microgravity", some "ISS") rowMatch
    ⟨by decide, by decide, by decide⟩

/-! ## Ingest alignment lemmas -/

/-- `range'` splits across a sum. -/
theorem rangeApp :
    ∀ (m s k : Nat),
      List.range' s (m + k) = List.range' s m ++ List.range' (s + m) k := by
  intro m
  induction m with
  | zero => intro s k; simp
  | succ m ih =>
    intro s k
    have h1 : m + 1 + k = (m + k) + 1 := by omega
    rw [h1]
    show s :: List.range' (s + 1) (m + k)
      = (s :: List.range' (s + 1) m) ++ List.range' (s + (m + 1)) k
    rw [List.cons_append, ih (s + 1) k]
    have h2 : s + 1 + m = s + (m + 1) := by omega
    rw [h2]

/-- The chunk loop of `run_ingest` assigns consecutive ids starting at the
cursor, and appends exactly the chunk texts. -/
theorem chunkRecords_spec (p title : String) (year og st pl : Option String)
    (pageNo : Nat) :
    ∀ (chunks : List String) (cursor : Nat),
      (chunkRecords p title year og st pl pageNo cursor chunks).1.map Row.id
          = List.range' cursor chunks.length ∧
      (chunkRecords p title year og st pl pageNo cursor chunks).2.1
          = (chunkRecords p title year og st pl pageNo cursor chunks).1.map
              Row.text ∧
      (chunkRecords p title year og st pl pageNo cursor chunks).2.2
          = cursor + chunks.length ∧
      (chunkRecords p title year og st pl pageNo cursor chunks).1.length
          = chunks.length := by
  intro chunks
  induction chunks with
  | nil => intro cursor; refine ⟨rfl, rfl, by simp [chunkRecords], rfl⟩
  | cons ch rest ih =>
    intro cursor
    obtain ⟨h1, h2, h3, h4⟩ := ih (cursor + 1)
    simp only [chunkRecords, List.map_cons, List.length_cons]
    refine ⟨?_, ?_, ?_, ?_⟩
    · rw [h1]
      show List.range' cursor (rest.length + 1)
        = cursor :: List.range' (cursor + 1) rest.length
      rfl
    · rw [h2]
      rfl
    · rw [h3]; omega
    · rw [h4]

/-- The page loop of `run_ingest` preserves the id/text alignment. -/
theorem pagesRecords_spec (tl : String → Nat) (p title : String)
    (year og st pl : Option String) :
    ∀ (pages : List (Nat × String)) (cursor : Nat) (rs : List Row)
      (ts : List String) (c' : Nat),
      pagesRecords tl p title year og st pl cursor pages = some (rs, ts, c') →
      rs.map Row.id = List.range' cursor rs.length ∧
      ts = rs.map Row.text ∧ c' = cursor + rs.length := by
  intro pages
  induction pages with
  | nil =>
    intro cursor rs ts c' h
    simp only [pagesRecords, Option.some.injEq, Prod.mk.injEq] at h
    obtain ⟨h1, h2, h3⟩ := h
    subst h1; subst h2; subst h3
    exact ⟨rfl, rfl, rfl⟩
  | cons pg rest ih =>
    intro cursor rs ts c' h
    obtain ⟨pageNo, txt⟩ := pg
    simp only [pagesRecords] at h
    by_cases hskip : pyStrip txt = ""
    · rw [if_pos hskip] at h
      exact ih cursor rs ts c' h
    · rw [if_neg hskip] at h
      split at h
      next => exact absurd h (by simp)
      next chunks heq =>
        split at h
        next => exact absurd h (by simp)
        next rs2 ts2 c2 heq2 =>
          simp only [Option.some.injEq, Prod.mk.injEq] at h
          obtain ⟨h1, h2, h3⟩ := h
          obtain ⟨hc1, hc2, hc3, hc4⟩ :=
            chunkRecords_spec p title year og st pl pageNo chunks cursor
          obtain ⟨hp1, hp2, hp3⟩ := ih _ rs2 ts2 c2 heq2
          subst h1; subst h2; subst h3
          refine ⟨?_, ?_, ?_⟩
          · rw [List.map_append, hc1, hp1, hc3, List.length_append, hc4,
              rangeApp]
          · rw [hc2, hp2, List.map_append]
          · rw [hp3, hc3, List.length_append, hc4]
            omega

/-- The document loop of `run_ingest` preserves the id/text alignment. -/
theorem docsRecords_spec (tl : String → Nat) :
    ∀ (docs : List (String × List (Nat × String))) (cursor : Nat)
      (rs : List Row) (ts : List String) (c' : Nat),
      docsRecords tl cursor docs = some (rs, ts, c') →
      rs.map Row.id = List.range' cursor rs.length ∧
      ts = rs.map Row.text ∧ c' = cursor + rs.length := by
  intro docs
  induction docs with
  | nil =>
    intro cursor rs ts c' h
    simp only [docsRecords, Option.some.injEq, Prod.mk.injEq] at h
    obtain ⟨h1, h2, h3⟩ := h
    subst h1; subst h2; subst h3
    exact ⟨rfl, rfl, rfl⟩
  | cons doc rest ih =>
    intro cursor rs ts c' h
    obtain ⟨p, pages⟩ := doc
    simp only [docsRecords] at h
    by_cases hskip : pages.all (fun pg => pg.2 = "")
    · rw [if_pos hskip] at h
      exact ih cursor rs ts c' h
    · rw [if_neg hskip] at h
      split at h
      next => exact absurd h (by simp)
      next rs1 ts1 c1 heq =>
        split at h
        next => exact absurd h (by simp)
        next rs2 ts2 c2 heq2 =>
          simp only [Option.some.injEq, Prod.mk.injEq] at h
          obtain ⟨h1, h2, h3⟩ := h
          obtain ⟨hq1, hq2, hq3⟩ := pagesRecords_spec tl p _ _ _ _ _ pages
            cursor rs1 ts1 c1 heq
          obtain ⟨hp1, hp2, hp3⟩ := ih c1 rs2 ts2 c2 heq2
          subst h1; subst h2; subst h3
          refine ⟨?_, ?_, ?_⟩
          · rw [List.map_append, hq1, hp1, hq3, List.length_append, rangeApp]
          · rw [hq2, hp2, List.map_append]
          · rw [hp3, hq3, List.length_append]
            omega

/-- C9 (confirmed): for every successful ingest build, the `i`-th metadata
record has `id = i`, the parallel `texts_for_embed` sequence is exactly the
records' texts in the same order (so the vector at ordinal `i` — the
normalized embedding of `texts_for_embed[i]` — is embedded from record
`i`'s text for any embedding function), the counts agree, and the ids are
unique. -/
theorem C9_ordinal_alignment (tl : String → Nat)
    (docs : List (String × List (Nat × String))) (recs : List Row)
    (texts : List String) (h : runIngest tl docs = some (recs, texts)) :
    recs.map Row.id = List.range recs.length ∧
    texts = recs.map Row.text ∧
    texts.length = recs.length ∧
    (recs.map Row.id).Nodup ∧
    ∀ (β : Type) (embed : String → β),
      texts.map embed = recs.map (fun r => embed r.text) := by
  unfold runIngest at h
  cases hd : docsRecords tl 0 docs with
  | none => rw [hd] at h; exact absurd h (by simp)
  | some out =>
    obtain ⟨rs, ts, c⟩ := out
    rw [hd] at h
    simp only [Option.map_some', Option.some.injEq, Prod.mk.injEq] at h
    obtain ⟨h1, h2⟩ := h
    subst h1; subst h2
    obtain ⟨ha, hb, _⟩ := docsRecords_spec tl docs 0 rs ts c hd
    have hids : rs.map Row.id = List.range rs.length := by
      rw [ha, List.range_eq_range']
    refine ⟨hids, hb, ?_, ?_, ?_⟩
    · rw [hb, List.length_map]
    · rw [hids]; exact List.nodup_range _
    · intro β embed
      rw [hb, List.map_map]
      rfl

/-- C9 (witness): the alignment evaluated on a one-document corpus. -/
theorem C9_ordinal_alignment_witness :
    ([mkRecord "d.pdf" "d.pdf" none none none none 1 0 "a b"].map Row.id
        = List.range 1) ∧
    (["a b"] = [mkRecord "d.pdf" "d.pdf" none none none none 1 0 "a b"].map
        Row.text) ∧
    (["a b"].length
        = [mkRecord "d.pdf" "d.pdf" none none none none 1 0 "a b"].length) ∧
    ([mkRecord "d.pdf" "d.pdf" none none none none 1 0 "a b"].map
        Row.id).Nodup ∧
    ∀ (β : Type) (embed : String → β),
      (["a b"].map embed)
        = [mkRecord "d.pdf" "d.pdf" none none none none 1 0 "a b"].map
            (fun r => embed r.text) :=
  C9_ordinal_alignment tokenize_len ingestDocs
    [mkRecord "d.pdf" "d.pdf" none none none none 1 0 "a b"] ["a b"]
    (by decide)
